import Mathlib

/-
  Verification of the phylotree classification-table parser
  (phylotree_parser.py) against its natural-language specification.

  Text is modelled as List Char.  Regular expressions from the source are
  translated into executable recognizers; each recognizer carries a comment
  naming the source pattern it embeds.  Python exceptions are modelled by
  the PyErr type and Except.
-/

set_option maxRecDepth 10000

abbrev Str := List Char

/-- Errors a run of the parser can raise.  nameErrorUnboundName models the
fact that the statement at line 185 of the source, inside detect_haplogroup,
raises the bare name DuplicateDetectionError, which is unbound in the method
scope (the exception class is the nested PhylotreeParser.DuplicateDetectionError),
so Python raises NameError there.  duplicateDetectionError models the declared
exception class itself, which no reachable code path actually raises. -/
inductive PyErr where
  | nameErrorUnboundName
  | duplicateDetectionError
  | indexError
  | keyError
deriving DecidableEq, Repr

/-- Whitespace characters matched by the regex class backslash-s
(ASCII range; the source patterns only meet ASCII text). -/
def isWs (c : Char) : Bool :=
  c = ' ' || c = '\t' || c = '\n' || c = '\r' || c = '\x0b' || c = '\x0c'

def notWs (c : Char) : Bool := !(isWs c)

/-- Digit class backslash-d of the source regexes. -/
def isDig (c : Char) : Bool := c.isDigit

/-- The ATGC character class of Pattern.ATGC: [atgcATGC]. -/
def isBase (c : Char) : Bool :=
  c = 'a' || c = 't' || c = 'g' || c = 'c' || c = 'A' || c = 'T' || c = 'G' || c = 'C'

/-- Prefix test used to model literal fragments of a regex. -/
def startsWith : Str → Str → Bool
  | [], _ => true
  | _ :: _, [] => false
  | p :: ps, c :: cs => p = c && startsWith ps cs

/-- Substring search, modelling an unanchored regex search for a literal. -/
def hasSub (pat : Str) : Str → Bool
  | [] => pat = []
  | c :: rest => startsWith pat (c :: rest) || hasSub pat rest

/-- Pattern.TABLE_TITLE searched in a row text: the literal mt-MRCA. -/
def is_table_title (s : Str) : Bool := hasSub ("mt-MRCA".data) s

/-- Collapse every interior run of whitespace to one space, as the third
substitution of trim_white_space does. -/
def collapseWs : Str → Str
  | [] => []
  | [c] => [if isWs c then ' ' else c]
  | c1 :: c2 :: rest =>
      if isWs c1 && isWs c2 then collapseWs (c2 :: rest)
      else (if isWs c1 then ' ' else c1) :: collapseWs (c2 :: rest)

/-- trim_white_space: strip leading whitespace, strip trailing whitespace,
collapse interior whitespace runs to a single space. -/
def trim_white_space (s : Str) : Str :=
  collapseWs (((s.dropWhile isWs).reverse.dropWhile isWs).reverse)

/-- Python str.split on a single space character, as used on a condition
cell text; returns the segments between space characters, never empty. -/
def splitSp : Str → List Str
  | [] => [[]]
  | c :: rest =>
      if c = ' ' then [] :: splitSp rest
      else
        match splitSp rest with
        | t :: ts => (c :: t) :: ts
        | [] => [[c]]

/-- Split at every single whitespace character, keeping empty segments.
A string matches the anchored sequence pattern of BRANCH_CONDITIONS,
namely token (separator token)* where the separator is one whitespace
character, exactly when every segment of this split is a token; this holds
because no BRANCH_CONDITION token contains whitespace. -/
def wsSplit : Str → List Str
  | [] => [[]]
  | c :: rest =>
      if isWs c then [] :: wsSplit rest
      else
        match wsSplit rest with
        | t :: ts => (c :: t) :: ts
        | [] => [[c]]

/-- Optional opening parenthesis at the start of a token.  In every pattern
using it, the following alternative can never start with a parenthesis, so
consuming it when present is exact. -/
def dropParen (s : Str) : Str :=
  match s with
  | [] => []
  | c :: r => if c = '(' then r else c :: r

/-- Full anchored match of Pattern.REGULAR after its optional opening
parenthesis: one ATGC letter, one or more digits, one ATGC letter, zero or
more exclamation marks, optional closing parenthesis. -/
def regularAfterParen (s : Str) : Bool :=
  match s with
  | [] => false
  | b :: rest =>
      isBase b &&
        (let ds := rest.takeWhile isDig
         let r1 := rest.dropWhile isDig
         !ds.isEmpty &&
           match r1 with
           | [] => false
           | b2 :: r2 =>
               isBase b2 &&
                 (let r3 := r2.dropWhile (fun c => c = '!')
                  decide (r3 = []) || decide (r3 = [')'])))

/-- Full anchored match of Pattern.REGULAR. -/
def regular_match (s : Str) : Bool := regularAfterParen (dropParen s)

/-- The fixed allowlist interpolated into Pattern.EXCEPTIONS, in source
order, duplicates included. -/
def exceptions_list : List Str :=
  [ "T65d".data, "G71d".data, "A249d".data, "C299d".data, "C309d".data, "A337d".data,
    "T455d".data, "C456d".data, "C459d".data, "C498d".data, "C960d".data,
    "A1409d".data, "A1656d".data, "A2074d".data, "A2395d".data, "A4317d".data,
    "A5752d".data, "A5894d".data, "C5899d".data, "C7471d".data, "T15944d".data,
    "A16166d".data, "C16187d".data, "C16193d".data, "C16257d".data, "T16325d".data,
    "59-60d".data, "105-110d".data, "106-111d".data, "290-291d".data, "291-294d".data,
    "8281-8289d".data,
    "573.XC".data, "960.XC".data, "965.XC".data, "5899.XC".data, "8278.XC".data,
    "5899.XCd!".data,
    "44.1C".data, "5899.1C".data, "459.1C".data, "15944.1T".data,
    "374.1A".data, "455.1T".data, "2232.1A".data, "16259.1A".data,
    "595.1C".data, "1719.1G".data, "3172.1C".data, "191.1A".data,
    "2156.1A".data, "55.1T".data, "65.1T".data, "60.1T".data, "42.1G".data,
    "12310.1A".data, "291.1A".data, "5752.1A".data, "310.1T".data,
    "597.1T".data, "3229.1A".data, "2405.1C".data, "8276.1C".data,
    "2484.1C".data, "745.1T".data, "498.1C".data, "16169.1C".data,
    "5899.1C".data, "8279.1T".data, "5740.1A".data, "960.1C".data,
    "3307.1A".data, "93.1T".data, "456.1T".data, "356.1C".data,
    "3158.1T".data,
    "44.1C".data, "55.1T".data, "60.1T".data, "65.1T".data, "93.1T".data,
    "191.1A".data, "291.1A".data, "310.1T".data, "356.1C".data, "374.1A".data,
    "455.1T".data, "456.1T".data, "459.1C".data, "498.1C".data, "595.1C".data,
    "597.1T".data, "745.1T".data, "960.1C".data, "1719.1G".data, "2156.1A".data,
    "2232.1A".data, "2405.1C".data, "2484.1C".data, "3158.1T".data, "3172.1C".data,
    "3229.1A".data, "3307.1A".data, "5740.1A".data, "5752.1A".data, "5899.1C".data,
    "5899.1C".data, "8276.1C".data, "8279.1T".data, "12310.1A".data, "15944.1T".data,
    "16169.1C".data, "16259.1A".data,
    "C5899.1d!".data, "459.1Cd!".data,
    "60.1TT".data, "292.1AT".data, "368.1AGAA".data,
    "8289.1CCCCCTCTA".data, "8289.1CCCCCTCTACCCCCTCTA".data,
    "455.2T".data, "2232.2A".data,
    "(573.XC)".data, "(745.1T)".data, "(960.1C)".data,
    "(C965d)".data, "(C16193d)".data,
    "reserved".data ]

/-- Pattern.BRANCH_CONDITION: the regular pattern or a literal member of the
exceptions allowlist.  Note the IRREGULAR pattern is not an alternative. -/
def branch_condition_tok (s : Str) : Bool :=
  regular_match s || decide (s ∈ exceptions_list)

/-- Pattern.is_branch_conditions: anchored match of BRANCH_CONDITIONS, that
is a nonempty sequence of BRANCH_CONDITION tokens, each pair separated by a
single whitespace character. -/
def is_branch_conditions (s : Str) : Bool :=
  (wsSplit s).all branch_condition_tok

/-- Tail of the deletion alternative of Pattern.IRREGULAR after an optional
base letter: one or more digits then the letter d.  The range alternative
reuses this shape after the dash. -/
def del_tail (s : Str) : Option Str :=
  let ds := s.takeWhile isDig
  let r := s.dropWhile isDig
  if ds.isEmpty then none
  else
    match r with
    | 'd' :: r2 => some r2
    | _ => none

/-- Tail of the insertion alternative of Pattern.IRREGULAR after the dot:
an optional digit-or-X, one or more ATGC letters, an optional d. -/
def ins_tail (s : Str) : Option Str :=
  let s1 :=
    match s with
    | c :: r => if isDig c || c = 'X' then r else s
    | [] => s
  let bs := s1.takeWhile isBase
  let r := s1.dropWhile isBase
  if bs.isEmpty then none
  else
    match r with
    | 'd' :: r2 => some r2
    | _ => some r

/-- The inner alternation of Pattern.IRREGULAR: deletion with optional
leading base, insertion, range deletion, or the literal reserved.  Returns
the unconsumed rest on success. -/
def irregularCore (s : Str) : Option Str :=
  match s with
  | [] => none
  | c :: rest =>
      if isBase c then del_tail rest
      else if isDig c then
        let r := (c :: rest).dropWhile isDig
        match r with
        | 'd' :: r2 => some r2
        | '.' :: r2 => ins_tail r2
        | '-' :: r2 => del_tail r2
        | _ => none
      else if startsWith ("reserved".data) (c :: rest) then some ((c :: rest).drop 8)
      else none

/-- Pattern.is_irregular: anchored match of IRREGULAR, that is optional
opening parenthesis, the inner alternation, zero or more exclamation marks,
optional closing parenthesis. -/
def is_irregular (s : Str) : Bool :=
  match irregularCore (dropParen s) with
  | none => false
  | some r =>
      let r2 := r.dropWhile (fun c => c = '!')
      decide (r2 = []) || decide (r2 = [')'])

/-- The payload attached under the reserved key SELF_BRANCH_NAME. -/
structure Payload where
  conditions : List Str
  example_accessions : List Str
deriving DecidableEq, Repr

/-- A node of the raw tree: the optional entry stored under the reserved
key SELF_BRANCH_NAME, and the child entries keyed by haplogroup name in
dictionary insertion order. -/
inductive RawTree where
  | node (selfBranch : Option Payload) (children : List (Str × RawTree))

/-- Lookup of a child by key in a raw-tree node. -/
def lookupChild : List (Str × RawTree) → Str → Option RawTree
  | [], _ => none
  | (k, t) :: rest, key => if k = key then some t else lookupChild rest key

/-- Apply f to the child at key, inserting an empty node first when the key
is absent, as get_deep_hash does; a fresh key is appended at the end,
matching dictionary insertion order. -/
def updateChild (ch : List (Str × RawTree)) (key : Str) (f : RawTree → RawTree) :
    List (Str × RawTree) :=
  match ch with
  | [] => [(key, f (RawTree.node none []))]
  | (k, t) :: rest => if k = key then (k, f t) :: rest else (k, t) :: updateChild rest key f

/-- get_deep_hash followed by the assignment of the self-branch entry in
grow_tree: walk the keys from the root, creating empty nodes as needed, and
store the payload at the node reached. -/
def setPath : RawTree → List Str → Payload → RawTree
  | RawTree.node _ ch, [], p => RawTree.node (some p) ch
  | RawTree.node s ch, k :: ks, p => RawTree.node s (updateChild ch k (fun t => setPath t ks p))

/-- Read the self-branch entry found by walking the given keys. -/
def selfAt : RawTree → List Str → Option Payload
  | RawTree.node s _, [] => s
  | RawTree.node _ ch, k :: ks =>
      match lookupChild ch k with
      | some t => selfAt t ks
      | none => none

/-- The queue dictionary: most recently seen haplogroup name per depth. -/
def qset : List (Int × Str) → Int → Str → List (Int × Str)
  | [], d, v => [(d, v)]
  | (k, w) :: rest, d, v => if k = d then (k, v) :: rest else (k, w) :: qset rest d v

def qlookup : List (Int × Str) → Int → Option Str
  | [], _ => none
  | (k, w) :: rest, d => if k = d then some w else qlookup rest d

/-- Python range over an Int bound: empty when the bound is not positive. -/
def pyRange (n : Int) : List Int :=
  if n ≤ 0 then [] else (List.range n.toNat).map Int.ofNat

structure ParserState where
  queue : List (Int × Str)
  raw_tree : RawTree

/-- The queue reads performed by the walk of get_deep_hash, one per index;
a missing key means a KeyError, modelled by none. -/
def qkeys (q : List (Int × Str)) : List Int → Option (List Str)
  | [] => some []
  | i :: is =>
      match qlookup q i with
      | none => none
      | some v =>
          match qkeys q is with
          | none => none
          | some vs => some (v :: vs)

/-- grow_tree: store the haplogroup at the row depth in the queue, then
walk the raw tree along queue 0..depth and attach the payload there.
An empty index range makes get_deep_hash read itr at position zero and
raise IndexError; a missing queue entry raises KeyError. -/
def grow_tree (st : ParserState) (haplogroup : Str) (conditions example_accessions : List Str)
    (depth : Int) : Except PyErr ParserState :=
  let q := qset st.queue depth haplogroup
  match pyRange (depth + 1) with
  | [] => .error .indexError
  | i :: is =>
      match qkeys q (i :: is) with
      | none => .error .keyError
      | some keys => .ok ⟨q, setPath st.raw_tree keys ⟨conditions, example_accessions⟩⟩

/-- extract_example_accessions: the cells at positions -2 and -1 of the
column list, keeping the nonempty ones in that order; reading position -2
of a list shorter than two raises IndexError. -/
def extract_example_accessions (cols : List Str) : Except PyErr (List Str) :=
  match cols.reverse with
  | last :: pen :: _ =>
      .ok ((if pen = [] then [] else [pen]) ++ (if last = [] then [] else [last]))
  | _ => .error .indexError

/-- The loop of detect_haplogroup: skip candidates that equal an extracted
example accession; a second surviving candidate reaches the raise statement,
which names an unbound identifier and so raises NameError. -/
def detect_loop (ex : List Str) : List Str → Str → Except PyErr Str
  | [], h => .ok (if h = [] then "__BRANCH__".data else h)
  | c :: cs, h =>
      if c ∈ ex then detect_loop ex cs h
      else if h = [] then detect_loop ex cs c
      else .error .nameErrorUnboundName

def detect_haplogroup (candidates ex : List Str) : Except PyErr Str :=
  detect_loop ex candidates []

structure InterpretedRow where
  haplogroup : Str
  conditions : List Str
  example_accessions : List Str
  depth : Int
deriving DecidableEq, Repr

structure RowAcc where
  conditions : List Str
  depth : Int
  candidates : List Str

/-- The cell loop of process_tr over the trimmed column texts: empty cells
are skipped, a cell matching is_branch_conditions sets the conditions and
the depth to its index minus one, any other nonempty cell joins the
haplogroup candidates. -/
def scan_cols : Nat → List Str → RowAcc → RowAcc
  | _, [], acc => acc
  | i, text :: rest, acc =>
      scan_cols (i + 1) rest
        (if text = [] then acc
         else if is_branch_conditions text then
           ⟨splitSp text, (i : Int) - 1, acc.candidates⟩
         else ⟨acc.conditions, acc.depth, acc.candidates ++ [text]⟩)

/-- The row-interpretation part of process_tr, up to the arguments passed
to grow_tree; ok none models the early return for rows without any
condition cell. -/
def interpret_tr (cells : List Str) : Except PyErr (Option InterpretedRow) :=
  let cols := cells.map trim_white_space
  let acc := scan_cols 0 cols ⟨[], 0, []⟩
  if acc.conditions = [] then .ok none
  else
    match extract_example_accessions cols with
    | .error e => .error e
    | .ok ex =>
        match detect_haplogroup acc.candidates ex with
        | .error e => .error e
        | .ok h => .ok (some ⟨h, acc.conditions, ex, acc.depth⟩)

/-- process_tr: interpret the row and, when it is a tree row, insert it. -/
def process_tr (st : ParserState) (cells : List Str) : Except PyErr ParserState :=
  match interpret_tr cells with
  | .error e => .error e
  | .ok none => .ok st
  | .ok (some row) => grow_tree st row.haplogroup row.conditions row.example_accessions row.depth

/-- One step of is_in_useful_range: the state flips on the first row whose
text contains the table title, and that row itself is rejected. -/
def filterStep (st : Bool) (text : Str) : Bool × Bool :=
  if !st && is_table_title text then (true, false) else (st, st)

/-- The accept decisions of is_in_useful_range over a stream of row texts. -/
def filterRun (st : Bool) : List Str → List Bool
  | [] => []
  | r :: rs =>
      let p := filterStep st r
      p.2 :: filterRun p.1 rs

/-- A normalized tree node: the optional conditions and accessions hoisted
from the self branch, and the optional descendants mapping; none models the
absence of the corresponding dictionary key. -/
inductive PrettyTree where
  | node (selfBranch : Option Payload) (descendants : Option (List (Str × PrettyTree)))

mutual

/-- The recursive normalizer of the raw tree: hoist the self branch, recurse
into the non-self children, and record the descendants mapping only when it
is nonempty. -/
def prettify : RawTree → PrettyTree
  | RawTree.node s ch =>
      match prettifyChildren ch with
      | [] => PrettyTree.node s none
      | d :: ds => PrettyTree.node s (some (d :: ds))

def prettifyChildren : List (Str × RawTree) → List (Str × PrettyTree)
  | [] => []
  | (k, t) :: rest => (k, prettify t) :: prettifyChildren rest

end

/-- The loop of prettify_to_array over a descendants list: reading the
conditions of a child without a self branch raises KeyError, and so does
the truthiness test on the descendants key of a child that has none; the
recursive call passes the unchanged parent path, as the source does. -/
def prettify_to_array_aux :
    List (Str × PrettyTree) → List (List (Str × List Str)) → List (Str × List Str) →
      Except PyErr (List (List (Str × List Str)))
  | [], acc, _ => .ok acc
  | (name, PrettyTree.node s d) :: rest, acc, parent =>
      match s with
      | none => .error .keyError
      | some payload =>
          let current := parent ++ [(name, payload.conditions)]
          match d with
          | none => .error .keyError
          | some [] => prettify_to_array_aux rest (acc ++ [current]) parent
          | some (kid :: kids) =>
              match prettify_to_array_aux (kid :: kids) (acc ++ [current]) parent with
              | .error e => .error e
              | .ok acc2 => prettify_to_array_aux rest acc2 parent

/-- prettify_to_array applied to a normalized tree: reading the descendants
key of the root raises KeyError when the root has none. -/
def prettify_to_array (t : PrettyTree) :
    Except PyErr (List (List (Str × List Str))) :=
  match t with
  | PrettyTree.node _ none => .error .keyError
  | PrettyTree.node _ (some kids) => prettify_to_array_aux kids [] []

/-- The child at a key, or a fresh empty node, as get_deep_hash sees it. -/
def childOr (ch : List (Str × RawTree)) (key : Str) : RawTree :=
  (lookupChild ch key).getD (RawTree.node none [])

/-- Modelled from the spec: the insertion sub-grammar as the claim words it,
pos dot optional-X one-or-more-bases optional-d; the optional slot admits
only the letter X, not a digit. -/
def spec_ins_tail (s : Str) : Option Str :=
  let s1 :=
    match s with
    | 'X' :: r => r
    | _ => s
  let bs := s1.takeWhile isBase
  let r := s1.dropWhile isBase
  if bs.isEmpty then none
  else
    match r with
    | 'd' :: r2 => some r2
    | _ => some r

/-- Modelled from the spec: the inner alternation of the irregular grammar
as the claim words it, with the deletion written pos optional-base d, the
position before the optional base letter. -/
def spec_irregular_core (s : Str) : Option Str :=
  match s with
  | [] => none
  | c :: _ =>
      if isDig c then
        let r := s.dropWhile isDig
        match r with
        | 'd' :: r2 => some r2
        | '-' :: r2 => del_tail r2
        | '.' :: r2 => spec_ins_tail r2
        | b :: 'd' :: r2 => if isBase b then some r2 else none
        | _ => none
      else if startsWith ("reserved".data) s then some (s.drop 8)
      else none

/-- Modelled from the spec: the whole irregular grammar as the claim words
it, optional parentheses and trailing reversion marks around the inner
alternation of spec_irregular_core. -/
def spec_irregular (s : Str) : Bool :=
  match spec_irregular_core (dropParen s) with
  | none => false
  | some r =>
      let r2 := r.dropWhile (fun c => c = '!')
      decide (r2 = []) || decide (r2 = [')'])

theorem takeWhile_all {p : Char → Bool} (t r : Str) (h : ∀ c ∈ t, p c = true) :
    (t ++ r).takeWhile p = t ++ r.takeWhile p := by
  induction t with
  | nil => rfl
  | cons a t ih =>
      rw [List.cons_append, List.takeWhile_cons_of_pos (h a (List.mem_cons_self a t)),
        ih (fun c hc => h c (List.mem_cons_of_mem a hc)), List.cons_append]

theorem dropWhile_all {p : Char → Bool} (t r : Str) (h : ∀ c ∈ t, p c = true) :
    (t ++ r).dropWhile p = r.dropWhile p := by
  induction t with
  | nil => rfl
  | cons a t ih =>
      rw [List.cons_append, List.dropWhile_cons_of_pos (h a (List.mem_cons_self a t)),
        ih (fun c hc => h c (List.mem_cons_of_mem a hc))]

theorem base_notWs {c : Char} (h : isBase c = true) : notWs c = true := by
  simp only [isBase, Bool.or_eq_true, decide_eq_true_eq] at h
  rcases h with (((((((h | h) | h) | h) | h) | h) | h) | h) <;> subst h <;> decide

theorem dig_notWs {c : Char} (h : isDig c = true) : notWs c = true := by
  cases hw : isWs c with
  | false => simp [notWs, hw]
  | true =>
      exfalso
      simp only [isWs, Bool.or_eq_true, decide_eq_true_eq] at hw
      rcases hw with (((((hw | hw) | hw) | hw) | hw) | hw) <;> subst hw <;> simp [isDig] at h

theorem base_not_dig {c : Char} (h : isBase c = true) : isDig c = false := by
  simp only [isBase, Bool.or_eq_true, decide_eq_true_eq] at h
  rcases h with (((((((h | h) | h) | h) | h) | h) | h) | h) <;> subst h <;> decide

theorem dig_not_base {c : Char} (h : isDig c = true) : isBase c = false := by
  cases hb : isBase c with
  | false => rfl
  | true => rw [base_not_dig hb] at h; exact absurd h (by simp)

theorem regAP_wsfree (s : Str) (h : regularAfterParen s = true) :
    ∀ c ∈ s, notWs c = true := by
  match s with
  | [] => simp [regularAfterParen] at h
  | b :: rest =>
      rw [regularAfterParen] at h
      cases hr1 : rest.dropWhile isDig with
      | nil => rw [hr1] at h; simp at h
      | cons b2 r2 =>
          rw [hr1] at h
          simp only [Bool.and_eq_true, Bool.or_eq_true, decide_eq_true_eq] at h
          obtain ⟨hb, _, hb2, hr3⟩ := h
          intro c hc
          rcases List.mem_cons.mp hc with hc | hc
          · exact hc ▸ base_notWs hb
          · have hsplit : rest = rest.takeWhile isDig ++ (b2 :: r2) := by
              rw [← hr1, List.takeWhile_append_dropWhile]
            rw [hsplit] at hc
            rcases List.mem_append.mp hc with hc | hc
            · exact dig_notWs (List.mem_takeWhile_imp hc)
            · rcases List.mem_cons.mp hc with hc | hc
              · exact hc ▸ base_notWs hb2
              · have hsplit2 : r2 = r2.takeWhile (fun c => decide (c = '!')) ++
                    r2.dropWhile (fun c => decide (c = '!')) :=
                  (List.takeWhile_append_dropWhile _ _).symm
                rw [hsplit2] at hc
                rcases List.mem_append.mp hc with hc | hc
                · have := List.mem_takeWhile_imp hc
                  simp only [decide_eq_true_eq] at this
                  subst this; decide
                · rcases hr3 with hr3 | hr3 <;> rw [hr3] at hc
                  · simp at hc
                  · rcases List.mem_singleton.mp hc with hc
                    subst hc; decide

theorem dropParen_ne {c : Char} (r : Str) (h : ¬ c = '(') : dropParen (c :: r) = c :: r := by
  simp [dropParen, h]

theorem regular_wsfree (t : Str) (h : regular_match t = true) :
    ∀ c ∈ t, notWs c = true := by
  match t with
  | [] => simp [regular_match, dropParen, regularAfterParen] at h
  | c0 :: t1 =>
      by_cases hc0 : c0 = '('
      · subst hc0
        rw [regular_match] at h
        simp only [dropParen, if_pos rfl] at h
        intro c hc
        rcases List.mem_cons.mp hc with hc | hc
        · subst hc; decide
        · exact regAP_wsfree t1 h c hc
      · rw [regular_match, dropParen_ne t1 hc0] at h
        exact regAP_wsfree (c0 :: t1) h

theorem exceptions_wsfree_all :
    exceptions_list.all (fun s => s.all notWs) = true := by decide

theorem tok_wsfree (t : Str) (h : branch_condition_tok t = true) :
    ∀ c ∈ t, notWs c = true := by
  rw [branch_condition_tok, Bool.or_eq_true, decide_eq_true_eq] at h
  rcases h with h | h
  · exact regular_wsfree t h
  · intro c hc
    have := List.all_eq_true.mp exceptions_wsfree_all t h
    exact List.all_eq_true.mp this c hc

theorem wsSplit_ne_nil (s : Str) : wsSplit s ≠ [] := by
  match s with
  | [] => simp [wsSplit]
  | c :: rest =>
      rw [wsSplit]
      split
      · simp
      · cases h : wsSplit rest <;> simp

theorem wsSplit_wsfree (s : Str) (h : ∀ c ∈ s, notWs c = true) : wsSplit s = [s] := by
  induction s with
  | nil => rfl
  | cons c rest ih =>
      have hc : isWs c = false := by
        have := h c (List.mem_cons_self c rest)
        simpa [notWs] using this
      rw [wsSplit, if_neg (by simp [hc]),
        ih (fun x hx => h x (List.mem_cons_of_mem c hx))]

theorem wsSplit_append_ws (t : Str) {c : Char} (r : Str)
    (ht : ∀ x ∈ t, notWs x = true) (hc : isWs c = true) :
    wsSplit (t ++ c :: r) = t :: wsSplit r := by
  induction t with
  | nil => simp [wsSplit, hc]
  | cons a t ih =>
      have ha : isWs a = false := by
        have := ht a (List.mem_cons_self a t)
        simpa [notWs] using this
      rw [List.cons_append, wsSplit, if_neg (by simp [ha]),
        ih (fun x hx => ht x (List.mem_cons_of_mem a hx))]

theorem single_tok (s : Str) (h : ∀ c ∈ s, notWs c = true) :
    is_branch_conditions s = branch_condition_tok s := by
  rw [is_branch_conditions, wsSplit_wsfree s h]
  simp [List.all]

theorem bct_nil : branch_condition_tok [] = false := by decide

theorem splitSp_ne_nil (s : Str) : splitSp s ≠ [] := by
  match s with
  | [] => simp [splitSp]
  | c :: rest =>
      rw [splitSp]
      split
      · simp
      · cases h : splitSp rest <;> simp

theorem lookup_update (ch : List (Str × RawTree)) (key : Str) (f : RawTree → RawTree) :
    lookupChild (updateChild ch key f) key = some (f (childOr ch key)) := by
  induction ch with
  | nil => simp [updateChild, lookupChild, childOr]
  | cons e rest ih =>
      obtain ⟨k, t⟩ := e
      by_cases hk : k = key
      · subst hk
        simp [updateChild, lookupChild, childOr]
      · simp only [updateChild, if_neg hk, lookupChild, childOr]
        rw [ih]
        rfl

theorem selfAt_setPath (ks : List Str) (t : RawTree) (p : Payload) :
    selfAt (setPath t ks p) ks = some p := by
  induction ks generalizing t with
  | nil => obtain ⟨s, ch⟩ := t; rfl
  | cons k ks ih =>
      obtain ⟨s, ch⟩ := t
      rw [setPath, selfAt, lookup_update]
      exact ih (childOr ch k)

theorem filterStep_true (r : Str) : filterStep true r = (true, true) := by
  simp [filterStep]

theorem filterStep_false_title (r : Str) (h : is_table_title r = true) :
    filterStep false r = (true, false) := by
  simp [filterStep, h]

theorem filterStep_false_no_title (r : Str) (h : is_table_title r = false) :
    filterStep false r = (false, false) := by
  simp [filterStep, h]

theorem filterRun_true (l : List Str) : filterRun true l = l.map (fun _ => true) := by
  induction l with
  | nil => rfl
  | cons r rs ih => rw [filterRun, filterStep_true]; simp [ih]

/-- Claim C4 counterexample: the token C123d matches the irregular grammar
but is rejected by is_branch_conditions, refuting the claim that every
token accepted by is_irregular is also accepted by is_branch_conditions. -/
theorem claim_C4_counterexample :
    is_irregular ("C123d".data) = true ∧ is_branch_conditions ("C123d".data) = false := by
  exact ⟨by decide, by decide⟩

/-- Claim C4 amended: the token alternation of BRANCH_CONDITIONS consists
of the regular pattern and the exceptions allowlist only; every token
matching either alternative is accepted by is_branch_conditions, while a
token matching only the irregular grammar, such as C123d, is rejected. -/
theorem claim_C4_theorem (s : Str)
    (h : regular_match s = true ∨ s ∈ exceptions_list) :
    is_branch_conditions s = true := by
  have htok : branch_condition_tok s = true := by
    rw [branch_condition_tok, Bool.or_eq_true]
    rcases h with h | h
    · exact Or.inl h
    · exact Or.inr (decide_eq_true h)
  rw [single_tok s (tok_wsfree s htok), htok]

/-- Claim C4 witness: the exceptions allowlist member C459d is accepted by
is_branch_conditions. -/
theorem claim_C4_witness : is_branch_conditions ("C459d".data) = true :=
  claim_C4_theorem ("C459d".data) (Or.inr (by decide))

/-- Claim C6 counterexample: a single tab character, which is not a single
space, also separates two valid tokens, so a non-space separator is not
always rejected. -/
theorem claim_C6_counterexample :
    is_branch_conditions ("A123G".data ++ '\t' :: "T456C".data) = true ∧
    ('\t' : Char) ≠ ' ' := by
  exact ⟨by decide, by decide⟩

/-- Claim C6 amended: is_branch_conditions accepts exactly one-or-more
valid BranchCondition tokens separated by single whitespace characters,
anchored at both ends: joining two valid tokens with any one whitespace
character is accepted and joining them with two spaces is rejected. -/
theorem claim_C6_theorem (t1 t2 : Str) (c : Char)
    (h1 : branch_condition_tok t1 = true) (h2 : branch_condition_tok t2 = true)
    (hc : isWs c = true) :
    is_branch_conditions (t1 ++ c :: t2) = true ∧
    is_branch_conditions (t1 ++ ' ' :: ' ' :: t2) = false := by
  have hw1 := tok_wsfree t1 h1
  have hw2 := tok_wsfree t2 h2
  constructor
  · rw [is_branch_conditions, wsSplit_append_ws t1 t2 hw1 hc, wsSplit_wsfree t2 hw2]
    simp [h1, h2]
  · rw [is_branch_conditions, wsSplit_append_ws t1 (' ' :: t2) hw1 (by decide)]
    have hsp : wsSplit (' ' :: t2) = [] :: wsSplit t2 := by
      rw [wsSplit, if_pos (by decide)]
    rw [hsp]
    simp [bct_nil]

/-- Claim C6 witness: the two spec examples, a single space accepted and a
double space rejected. -/
theorem claim_C6_witness :
    is_branch_conditions ("A123G".data ++ ' ' :: "T456C!".data) = true ∧
    is_branch_conditions ("A123G".data ++ ' ' :: ' ' :: "T456C!".data) = false :=
  claim_C6_theorem ("A123G".data) ("T456C!".data) ' ' (by decide) (by decide) (by decide)

/-- Claim C7 counterexample: A123G is a valid regular token, yet appending
the single character exclamation mark yields A123G!, which
is_branch_conditions still accepts, refuting the claim that any one extra
trailing character is rejected. -/
theorem claim_C7_counterexample :
    regular_match ("A123G".data) = true ∧
    is_branch_conditions ("A123G".data ++ ['!']) = true := by
  exact ⟨by decide, by decide⟩

/-- Claim C7 amended: for every valid regular token, is_branch_conditions
accepts the token by itself, and accepts the token with one extra trailing
character exactly when the extended string is itself a single valid
BranchCondition token. -/
theorem claim_C7_theorem (s : Str) (c : Char) (h : regular_match s = true) :
    is_branch_conditions s = true ∧
    is_branch_conditions (s ++ [c]) = branch_condition_tok (s ++ [c]) := by
  have htok : branch_condition_tok s = true := by
    rw [branch_condition_tok, Bool.or_eq_true]; exact Or.inl h
  have hwf := tok_wsfree s htok
  refine ⟨by rw [single_tok s hwf, htok], ?_⟩
  cases hwc : isWs c with
  | false =>
      apply single_tok
      intro x hx
      rcases List.mem_append.mp hx with hx | hx
      · exact hwf x hx
      · have hx := List.mem_singleton.mp hx
        subst hx
        simp [notWs, hwc]
  | true =>
      have hl : is_branch_conditions (s ++ [c]) = false := by
        rw [is_branch_conditions,
          show s ++ [c] = s ++ c :: [] from rfl,
          wsSplit_append_ws s [] hwf hwc]
        simp [wsSplit, bct_nil]
      have hr : branch_condition_tok (s ++ [c]) = false := by
        cases hb : branch_condition_tok (s ++ [c]) with
        | false => rfl
        | true =>
            have hmem := tok_wsfree _ hb c (by simp)
            rw [notWs, hwc] at hmem
            simp at hmem
      rw [hl, hr]

/-- Claim C7 witness: the token A123G alone is accepted, and with a
trailing x the acceptance coincides with single-token validity. -/
theorem claim_C7_witness :
    is_branch_conditions ("A123G".data) = true ∧
    is_branch_conditions ("A123G".data ++ ['x']) =
      branch_condition_tok ("A123G".data ++ ['x']) :=
  claim_C7_theorem ("A123G".data) 'x' (by decide)

theorem base_ne_paren {c : Char} (h : isBase c = true) : ¬ c = '(' := by
  intro he; rw [he] at h; exact absurd h (by decide)

theorem dig_ne_paren {c : Char} (h : isDig c = true) : ¬ c = '(' := by
  intro he; rw [he] at h; exact absurd h (by decide)

theorem digits_split {p : Str} (r : Str) {c : Char} (hd : ∀ x ∈ p, isDig x = true)
    (hc : isDig c = false) :
    (p ++ c :: r).takeWhile isDig = p ∧ (p ++ c :: r).dropWhile isDig = c :: r := by
  constructor
  · rw [takeWhile_all p _ hd, List.takeWhile_cons_of_neg (by simp [hc]), List.append_nil]
  · rw [dropWhile_all p _ hd, List.dropWhile_cons_of_neg (by simp [hc])]

theorem del_tail_append (p r : Str) (hp : p ≠ []) (hd : ∀ c ∈ p, isDig c = true) :
    del_tail (p ++ 'd' :: r) = some r := by
  obtain ⟨hts, hds⟩ := digits_split r hd (c := 'd') (by decide)
  obtain ⟨a, p2, rfl⟩ := List.exists_cons_of_ne_nil hp
  simp only [del_tail, hts, hds]
  simp

theorem is_irregular_of_core (c : Char) (s : Str) (hc : ¬ c = '(')
    (h : irregularCore (c :: s) = some []) : is_irregular (c :: s) = true := by
  simp only [is_irregular]
  rw [dropParen_ne s hc, h]
  decide

theorem irregular_del_base (b : Char) (p : Str) (hb : isBase b = true) (hp : p ≠ [])
    (hd : ∀ c ∈ p, isDig c = true) :
    is_irregular (b :: (p ++ ['d'])) = true := by
  apply is_irregular_of_core b (p ++ ['d']) (base_ne_paren hb)
  simp only [irregularCore, if_pos hb]
  exact del_tail_append p [] hp hd

theorem irregular_del (p : Str) (hp : p ≠ []) (hd : ∀ c ∈ p, isDig c = true) :
    is_irregular (p ++ ['d']) = true := by
  obtain ⟨a, p2, rfl⟩ := List.exists_cons_of_ne_nil hp
  have ha : isDig a = true := hd a (List.mem_cons_self a p2)
  apply is_irregular_of_core a (p2 ++ ['d']) (dig_ne_paren ha)
  have hds : List.dropWhile isDig (a :: (p2 ++ ['d'])) = ['d'] :=
    (digits_split [] hd (c := 'd') (by decide)).2
  simp [irregularCore, hds, dig_not_base ha, ha]

theorem irregular_range (p q : Str) (hp : p ≠ []) (hq : q ≠ [])
    (hdp : ∀ c ∈ p, isDig c = true) (hdq : ∀ c ∈ q, isDig c = true) :
    is_irregular (p ++ '-' :: (q ++ ['d'])) = true := by
  obtain ⟨a, p2, rfl⟩ := List.exists_cons_of_ne_nil hp
  have ha : isDig a = true := hdp a (List.mem_cons_self a p2)
  apply is_irregular_of_core a (p2 ++ '-' :: (q ++ ['d'])) (dig_ne_paren ha)
  have hds : List.dropWhile isDig (a :: (p2 ++ '-' :: (q ++ ['d']))) = '-' :: (q ++ ['d']) :=
    (digits_split (q ++ ['d']) hdp (c := '-') (by decide)).2
  simp [irregularCore, hds, dig_not_base ha, ha]
  exact del_tail_append q [] hq hdq

theorem irregular_ins (p bs : Str) (hp : p ≠ []) (hbs : bs ≠ [])
    (hdp : ∀ c ∈ p, isDig c = true) (hb : ∀ c ∈ bs, isBase c = true) :
    is_irregular (p ++ '.' :: 'X' :: bs) = true := by
  obtain ⟨a, p2, rfl⟩ := List.exists_cons_of_ne_nil hp
  have ha : isDig a = true := hdp a (List.mem_cons_self a p2)
  apply is_irregular_of_core a (p2 ++ '.' :: 'X' :: bs) (dig_ne_paren ha)
  have hds : List.dropWhile isDig (a :: (p2 ++ '.' :: 'X' :: bs)) = '.' :: 'X' :: bs :=
    (digits_split ('X' :: bs) hdp (c := '.') (by decide)).2
  have htk : bs.takeWhile isBase = bs := by
    have := takeWhile_all bs [] hb
    simpa using this
  have hdr : bs.dropWhile isBase = [] := by
    have := dropWhile_all bs [] hb
    simpa using this
  obtain ⟨b0, bs2, rfl⟩ := List.exists_cons_of_ne_nil hbs
  simp [irregularCore, hds, dig_not_base ha, ha, ins_tail, htk, hdr]

/-- Claim C8 counterexample: the claim words the deletion sub-grammar as
pos base? d and the insertion slot as X only, while the source pattern puts
the optional base before the position and admits a digit in the slot: the
token 459Cd matches the grammar as the claim words it but is_irregular
rejects it, and the token 44.1C is accepted by is_irregular but does not
match the grammar as the claim words it. -/
theorem claim_C8_counterexample :
    spec_irregular ("459Cd".data) = true ∧ is_irregular ("459Cd".data) = false ∧
    is_irregular ("44.1C".data) = true ∧ spec_irregular ("44.1C".data) = false := by
  exact ⟨by decide, by decide, by decide, by decide⟩

/-- Claim C8 amended: is_irregular matches, anchored, an optional opening
parenthesis, then a deletion base? pos d with the optional base letter
before the position, an insertion pos dot digit-or-X? base+ d?, a range
deletion pos dash pos d, or the literal reserved, then reversion marks and
an optional closing parenthesis; in particular 960.XC is accepted and
960.XQ is rejected. -/
theorem claim_C8_theorem :
    is_irregular ("960.XC".data) = true ∧
    is_irregular ("960.XQ".data) = false ∧
    (∀ b p, isBase b = true → p ≠ [] → (∀ c ∈ p, isDig c = true) →
      is_irregular (b :: (p ++ ['d'])) = true) ∧
    (∀ p, p ≠ [] → (∀ c ∈ p, isDig c = true) →
      is_irregular (p ++ ['d']) = true) ∧
    (∀ p q, p ≠ [] → q ≠ [] → (∀ c ∈ p, isDig c = true) → (∀ c ∈ q, isDig c = true) →
      is_irregular (p ++ '-' :: (q ++ ['d'])) = true) ∧
    (∀ p bs, p ≠ [] → bs ≠ [] → (∀ c ∈ p, isDig c = true) → (∀ c ∈ bs, isBase c = true) →
      is_irregular (p ++ '.' :: 'X' :: bs) = true) := by
  refine ⟨by decide, by decide, ?_, ?_, ?_, ?_⟩
  · exact fun b p hb hp hd => irregular_del_base b p hb hp hd
  · exact fun p hp hd => irregular_del p hp hd
  · exact fun p q hp hq hdp hdq => irregular_range p q hp hq hdp hdq
  · exact fun p bs hp hbs hdp hb => irregular_ins p bs hp hbs hdp hb

/-- Claim C8 witness: the deletion family instantiated at C459d, the
source example for a deletion with a leading base letter. -/
theorem claim_C8_witness : is_irregular ('C' :: ("459".data ++ ['d'])) = true :=
  claim_C8_theorem.2.2.1 'C' ("459".data) (by decide) (by decide) (by decide)

/-- Claim C1: inserting rows with depths 0, 1, 1, 0 and names H, H1, H2, I
in that order produces a raw tree in which H has exactly the children H1
and H2 next to its own self-branch entry and I is a root-level sibling of
H, with H1 and H2 left in place after queue zero is overwritten by I; and
in general a successful insertion walks the path given by the queue entries
zero up to the row depth, stores the row payload at the final node of that
path, and leaves the updated queue in the state. -/
theorem claim_C1_theorem :
    (do
      let s1 ← grow_tree ⟨[], RawTree.node none []⟩ ("H".data) ["A1G".data] [] 0
      let s2 ← grow_tree s1 ("H1".data) ["T2C".data] [] 1
      let s3 ← grow_tree s2 ("H2".data) ["G3A".data] [] 1
      grow_tree s3 ("I".data) ["C4T".data] [] 0) =
      .ok ⟨[(0, "I".data), (1, "H2".data)],
        RawTree.node none
          [("H".data, RawTree.node (some ⟨["A1G".data], []⟩)
              [("H1".data, RawTree.node (some ⟨["T2C".data], []⟩) []),
               ("H2".data, RawTree.node (some ⟨["G3A".data], []⟩) [])]),
           ("I".data, RawTree.node (some ⟨["C4T".data], []⟩) [])]⟩ ∧
    (∀ st h c e d st', grow_tree st h c e d = .ok st' →
      ∃ keys, keys ≠ [] ∧
        qkeys (qset st.queue d h) (pyRange (d + 1)) = some keys ∧
        st'.queue = qset st.queue d h ∧
        st'.raw_tree = setPath st.raw_tree keys ⟨c, e⟩ ∧
        selfAt st'.raw_tree keys = some ⟨c, e⟩) := by
  constructor
  · rfl
  · intro st h c e d st' hg
    simp only [grow_tree] at hg
    cases hr : pyRange (d + 1) with
    | nil => simp only [hr] at hg; exact absurd hg (by simp)
    | cons i is =>
        simp only [hr] at hg
        cases hm : qkeys (qset st.queue d h) (i :: is) with
        | none => simp only [hm] at hg; exact absurd hg (by simp)
        | some keys =>
            simp only [hm] at hg
            obtain rfl := Except.ok.inj hg
            refine ⟨keys, ?_, ?_, rfl, rfl, selfAt_setPath keys st.raw_tree ⟨c, e⟩⟩
            · intro hk
              subst hk
              simp only [qkeys] at hm
              cases hq : qlookup (qset st.queue d h) i <;> simp only [hq] at hm
              · exact absurd hm (by simp)
              · cases hq2 : qkeys (qset st.queue d h) is <;> simp only [hq2] at hm <;>
                  simp at hm
            · rfl

/-- Claim C1 witness: the general insertion shape instantiated at the first
row of the scenario, name H at depth zero from the empty state. -/
theorem claim_C1_witness :
    ∃ keys, keys ≠ [] ∧
      qkeys (qset ([] : List (Int × Str)) 0 ("H".data)) (pyRange (0 + 1)) = some keys ∧
      (⟨[(0, "H".data)], RawTree.node none
          [("H".data, RawTree.node (some ⟨["A1G".data], []⟩) [])]⟩ : ParserState).queue =
        qset ([] : List (Int × Str)) 0 ("H".data) ∧
      (⟨[(0, "H".data)], RawTree.node none
          [("H".data, RawTree.node (some ⟨["A1G".data], []⟩) [])]⟩ : ParserState).raw_tree =
        setPath (RawTree.node none []) keys ⟨["A1G".data], []⟩ ∧
      selfAt (⟨[(0, "H".data)], RawTree.node none
          [("H".data, RawTree.node (some ⟨["A1G".data], []⟩) [])]⟩ : ParserState).raw_tree
          keys = some ⟨["A1G".data], []⟩ :=
  claim_C1_theorem.2 ⟨[], RawTree.node none []⟩ ("H".data) ["A1G".data] [] 0
    ⟨[(0, "H".data)], RawTree.node none [("H".data, RawTree.node (some ⟨["A1G".data], []⟩) [])]⟩
    rfl

/-- Claim C2 counterexample: on the row with cells empty, A123G, empty, H1,
AB123456 the interpreter yields depth 0, the blank-branch sentinel as the
haplogroup and both H1 and AB123456 as example accessions, so its result is
not the interpreted row the claim states, because the claimed depth
contradicts the index-minus-one rule and H1 occupies the second-to-last
cell and is therefore extracted as an accession. -/
theorem claim_C2_counterexample :
    interpret_tr ["".data, "A123G".data, "".data, "H1".data, "AB123456".data] =
      .ok (some ⟨"__BRANCH__".data, ["A123G".data], ["H1".data, "AB123456".data], 0⟩) ∧
    (⟨"__BRANCH__".data, ["A123G".data], ["H1".data, "AB123456".data], 0⟩ : InterpretedRow) ≠
      ⟨"H1".data, ["A123G".data], ["AB123456".data], 1⟩ ∧
    interpret_tr ["".data, "A123G".data, "".data, "H1".data, "AB123456".data] ≠
      .ok (some ⟨"H1".data, ["A123G".data], ["AB123456".data], 1⟩) := by
  refine ⟨rfl, by decide, ?_⟩
  intro hcontra
  have hrow : (⟨"__BRANCH__".data, ["A123G".data], ["H1".data, "AB123456".data], 0⟩ :
      InterpretedRow) = ⟨"H1".data, ["A123G".data], ["AB123456".data], 1⟩ :=
    Option.some.inj (Except.ok.inj hcontra)
  exact absurd hrow (by decide)

/-- Claim C2 amended: interpreting the row with cells empty, A123G, empty,
H1, AB123456 yields depth 0, the condition cell index 1 minus one,
conditions A123G, example accessions H1 and AB123456, the nonempty ones
among the last two cells in original order, and the blank-branch sentinel
as the haplogroup, since both candidates equal extracted accessions; and in
general, on any column list with at least two cells, extraction keeps the
nonempty ones among the last two cells in original order. -/
theorem claim_C2_theorem :
    interpret_tr ["".data, "A123G".data, "".data, "H1".data, "AB123456".data] =
      .ok (some ⟨"__BRANCH__".data, ["A123G".data], ["H1".data, "AB123456".data], 0⟩) ∧
    extract_example_accessions
        (["".data, "A123G".data, "".data, "H1".data, "AB123456".data].map trim_white_space) =
      .ok ["H1".data, "AB123456".data] ∧
    (∀ cols a b, extract_example_accessions (cols ++ [a, b]) =
      .ok ((if a = [] then [] else [a]) ++ (if b = [] then [] else [b]))) := by
  refine ⟨rfl, rfl, ?_⟩
  intro cols a b
  have hrev : (cols ++ [a, b]).reverse = b :: a :: cols.reverse := by
    simp
  simp only [extract_example_accessions, hrev]

/-- Claim C3: with two surviving candidates the raise statement executes,
but it references an unbound name and so the run aborts with NameError, not
with the declared DuplicateDetectionError class; zero surviving candidates
give the blank-branch sentinel and one gives that candidate, accession-equal
candidates being discarded first. -/
theorem claim_C3_theorem :
    detect_haplogroup ["H1".data, "H2".data] [] = .error .nameErrorUnboundName ∧
    detect_haplogroup ["H1".data, "H2".data] [] ≠ .error .duplicateDetectionError ∧
    detect_haplogroup [] [] = .ok ("__BRANCH__".data) ∧
    detect_haplogroup ["H1".data] [] = .ok ("H1".data) ∧
    detect_haplogroup ["AB1".data, "H1".data] ["AB1".data] = .ok ("H1".data) := by
  refine ⟨rfl, ?_, rfl, rfl, rfl⟩
  intro hcontra
  exact PyErr.noConfusion (Except.error.inj hcontra)

/-- Claim C5: flattening fails rather than succeeding on trees produced by
the normalizer: the pretty tree of a single inserted row has the leaf child
H without a descendants key, so prettify_to_array raises KeyError there,
and it also raises KeyError on the childless root. -/
theorem claim_C5_theorem :
    grow_tree ⟨[], RawTree.node none []⟩ ("H".data) ["A123G".data] [] 0 =
      .ok ⟨[(0, "H".data)],
        RawTree.node none [("H".data, RawTree.node (some ⟨["A123G".data], []⟩) [])]⟩ ∧
    prettify_to_array
        (prettify (RawTree.node none
          [("H".data, RawTree.node (some ⟨["A123G".data], []⟩) [])])) =
      .error .keyError ∧
    prettify_to_array (prettify (RawTree.node none [])) = .error .keyError := by
  refine ⟨rfl, ?_, ?_⟩
  · simp [prettify, prettifyChildren, prettify_to_array, prettify_to_array_aux]
  · simp [prettify, prettifyChildren, prettify_to_array]

/-- Claim C9: every row strictly before the first title-bearing row is
rejected, that title row itself is rejected, and every later row is
accepted whatever its content, the flip being one-way. -/
theorem claim_C9_theorem (pre : List Str) (t : Str) (post : List Str)
    (hpre : ∀ r ∈ pre, is_table_title r = false) (ht : is_table_title t = true) :
    filterRun false (pre ++ t :: post) =
      pre.map (fun _ => false) ++ false :: post.map (fun _ => true) := by
  induction pre with
  | nil =>
      simp only [List.nil_append, List.map_nil, filterRun,
        filterStep_false_title t ht]
      simp [filterRun_true]
  | cons r rs ih =>
      have hr := hpre r (List.mem_cons_self r rs)
      simp only [List.cons_append, List.map_cons, filterRun,
        filterStep_false_no_title r hr]
      have ihr := ih (fun x hx => hpre x (List.mem_cons_of_mem r hx))
      simp only [List.append_eq]
      rw [ihr]

/-- Claim C9 witness: a header row is rejected, the title row is rejected,
and the two following rows are accepted, the second one even though it
contains the title marker again. -/
theorem claim_C9_witness :
    filterRun false (["header".data] ++ ("xx mt-MRCA yy".data) ::
        ["H1 row".data, "another mt-MRCA".data]) =
      (["header".data] : List Str).map (fun _ => false) ++ false ::
        (["H1 row".data, "another mt-MRCA".data] : List Str).map (fun _ => true) :=
  claim_C9_theorem ["header".data] ("xx mt-MRCA yy".data)
    ["H1 row".data, "another mt-MRCA".data] (by decide) (by decide)

/-- Claim C10: a row with exactly one cell whose normalized text matches
is_branch_conditions makes extract_example_accessions read position minus
two of a one-element list, so the row aborts processing with IndexError
instead of producing an interpreted row or being skipped. -/
theorem claim_C10_theorem (st : ParserState) (c : Str)
    (h : is_branch_conditions (trim_white_space c) = true) :
    process_tr st [c] = .error .indexError := by
  have hne : ¬ trim_white_space c = [] := by
    intro he; rw [he] at h; exact absurd h (by decide)
  have hi : interpret_tr [c] = .error .indexError := by
    simp only [interpret_tr, List.map, scan_cols, if_neg hne, if_pos h]
    rw [if_neg (splitSp_ne_nil (trim_white_space c))]
    simp [extract_example_accessions]
  rw [process_tr, hi]

/-- Claim C10 witness: the single-cell row A123G, a valid condition token,
aborts with IndexError. -/
theorem claim_C10_witness :
    is_branch_conditions (trim_white_space ("A123G".data)) = true ∧
    process_tr ⟨[], RawTree.node none []⟩ ["A123G".data] = .error .indexError :=
  ⟨by decide, claim_C10_theorem ⟨[], RawTree.node none []⟩ ("A123G".data) (by decide)⟩
